import Mathlib

/-!
Verification of the cross-model transcript validation and dataset
consolidation pipeline of the ka-two-b repository
(`src/processing/transcription_normalizer.py` and
`src/processing/transcription_validator.py`).

Strings are modelled as Lean `String` / `List Char`.  The Unicode NFD
decomposition used by `text_cleaning` is modelled by an explicit table
covering the precomposed Latin characters the pipeline is designed for
(the accented characters of Portuguese); `str.lower` is modelled on the
ASCII letters, which is exact here because accents are decomposed and
stripped before lowercasing.  Similarity scores are modelled as exact
rationals.
-/

namespace KaTwoB

/-- Python whitespace (the `\s` class and `str.strip` set) over the ASCII
range handled by the pipeline. -/
def isPySpace (c : Char) : Bool :=
  c = ' ' || c = '\t' || c = '\n' || c = '\r' || c = '\x0b' || c = '\x0c'

/-- NFD decompositions (`unicodedata.normalize('NFD', _)`) of the
precomposed Latin characters handled by the pipeline, each as base
character followed by its combining diacritical mark. -/
def nfdPairs : List (Char × List Char) :=
  [ ('á', ['a', '́']), ('à', ['a', '̀']), ('â', ['a', '̂']),
    ('ã', ['a', '̃']), ('ä', ['a', '̈']),
    ('é', ['e', '́']), ('è', ['e', '̀']), ('ê', ['e', '̂']),
    ('ë', ['e', '̈']),
    ('í', ['i', '́']), ('ì', ['i', '̀']), ('î', ['i', '̂']),
    ('ï', ['i', '̈']),
    ('ó', ['o', '́']), ('ò', ['o', '̀']), ('ô', ['o', '̂']),
    ('õ', ['o', '̃']), ('ö', ['o', '̈']),
    ('ú', ['u', '́']), ('ù', ['u', '̀']), ('û', ['u', '̂']),
    ('ü', ['u', '̈']),
    ('ç', ['c', '̧']), ('ñ', ['n', '̃']),
    ('Á', ['A', '́']), ('À', ['A', '̀']), ('Â', ['A', '̂']),
    ('Ã', ['A', '̃']), ('Ä', ['A', '̈']),
    ('É', ['E', '́']), ('È', ['E', '̀']), ('Ê', ['E', '̂']),
    ('Ë', ['E', '̈']),
    ('Í', ['I', '́']), ('Ì', ['I', '̀']), ('Î', ['I', '̂']),
    ('Ï', ['I', '̈']),
    ('Ó', ['O', '́']), ('Ò', ['O', '̀']), ('Ô', ['O', '̂']),
    ('Õ', ['O', '̃']), ('Ö', ['O', '̈']),
    ('Ú', ['U', '́']), ('Ù', ['U', '̀']), ('Û', ['U', '̂']),
    ('Ü', ['U', '̈']),
    ('Ç', ['C', '̧']), ('Ñ', ['N', '̃']) ]

/-- A character of Unicode category Mn (the combining diacritical marks
block, which contains every mark produced by `nfdPairs`). -/
def isMn (c : Char) : Bool :=
  0x300 ≤ c.toNat && c.toNat ≤ 0x36F

/-- NFD decomposition of a single character. -/
def nfdChar (c : Char) : List Char :=
  match nfdPairs.find? (fun p => p.1 = c) with
  | some p => p.2
  | none => [c]

/-- The two accent-stripping lines of `text_cleaning`: NFD-decompose, then
drop every character of category Mn. -/
def stripAccents (l : List Char) : List Char :=
  (l.flatMap nfdChar).filter (fun c => !(isMn c))

/-- The uppercase/lowercase ASCII letter pairs of `str.lower`. -/
def lowerPairs : List (Char × Char) :=
  [ ('A', 'a'), ('B', 'b'), ('C', 'c'), ('D', 'd'), ('E', 'e'), ('F', 'f'),
    ('G', 'g'), ('H', 'h'), ('I', 'i'), ('J', 'j'), ('K', 'k'), ('L', 'l'),
    ('M', 'm'), ('N', 'n'), ('O', 'o'), ('P', 'p'), ('Q', 'q'), ('R', 'r'),
    ('S', 's'), ('T', 't'), ('U', 'u'), ('V', 'v'), ('W', 'w'), ('X', 'x'),
    ('Y', 'y'), ('Z', 'z') ]

/-- `str.lower` on one character. -/
def lowerChar (c : Char) : Char :=
  match lowerPairs.find? (fun p => p.1 = c) with
  | some p => p.2
  | none => c

/-- `text.replace('\n', ' ')`. -/
def replaceNewlines (l : List Char) : List Char :=
  l.map (fun c => if c = '\n' then ' ' else c)

/-- Scanner of `re.sub('<.*?>', '', text)` (`remove_html_tags`): in
normal mode (`inTag = false`), a `<` that has a later `>` opens a
non-greedy match, which consumes up to the nearest following `>`
(`inTag = true`); a `<` with no later `>` matches nothing and stays.
Applied after newline replacement, so `.` matching any character but a
newline is exact. -/
def removeTagsGo : Bool → List Char → List Char
  | _, [] => []
  | false, c :: rest =>
    if c = '<' && '>' ∈ rest then removeTagsGo true rest
    else c :: removeTagsGo false rest
  | true, c :: rest =>
    if c = '>' then removeTagsGo false rest
    else removeTagsGo true rest

/-- `remove_html_tags` from transcription_normalizer.py. -/
def remove_html_tags (l : List Char) : List Char :=
  removeTagsGo false l

/-- `re.sub("[...]+", ".", text)`: the regex class `[...]` contains only
the period, so each maximal run of periods collapses to a single
period (a period directly followed by another is dropped). -/
def collapseDots : List Char → List Char
  | [] => []
  | [c] => [c]
  | c :: d :: rest =>
    if c = '.' && d = '.' then collapseDots (d :: rest)
    else c :: collapseDots (d :: rest)

/-- `re.sub("[(\[\])]+", "", text)`: delete parentheses and square
brackets. -/
def removeBrackets (l : List Char) : List Char :=
  l.filter (fun c => !(c = '(' || c = ')' || c = '[' || c = ']'))

/-- The punctuation class of the regex `\s([.,;:?!"](?:\s|$))`. -/
def sentencePuncts : List Char :=
  ['.', ',', ';', ':', '?', '!', '"']

/-- `re.sub(r'\s([.,;:?!"](?:\s|$))', r'\1', text)`: a single whitespace
character directly before a sentence punctuation mark that is followed by
whitespace or the end of the string is deleted; the whole match (three
characters, or two at the end) is consumed before scanning resumes. -/
def removeSpaceBeforePunct (l : List Char) : List Char :=
  match l with
  | c1 :: c2 :: c3 :: rest =>
    if isPySpace c1 && c2 ∈ sentencePuncts && isPySpace c3 then
      c2 :: c3 :: removeSpaceBeforePunct rest
    else
      c1 :: removeSpaceBeforePunct (c2 :: c3 :: rest)
  | [c1, c2] =>
    if isPySpace c1 && c2 ∈ sentencePuncts then [c2] else [c1, c2]
  | l => l

/-- `re.sub("[  ]+", " ", text)`: the class holds only the plain space
character, so each maximal run of spaces collapses to a single space
(a space directly followed by another is dropped). -/
def collapseSpaceRuns : List Char → List Char
  | [] => []
  | [c] => [c]
  | c :: d :: rest =>
    if c = ' ' && d = ' ' then collapseSpaceRuns (d :: rest)
    else c :: collapseSpaceRuns (d :: rest)

/-- Python `str.strip()`: drop leading and trailing whitespace. -/
def stripChars (l : List Char) : List Char :=
  ((l.dropWhile isPySpace).reverse.dropWhile isPySpace).reverse

/-- `text_cleaning` from transcription_normalizer.py: newline replacement,
HTML-tag removal, accent stripping, lowercasing, period-run collapsing,
bracket removal, space-before-punctuation removal, space-run collapsing,
strip. -/
def text_cleaning (l : List Char) : List Char :=
  stripChars (collapseSpaceRuns (removeSpaceBeforePunct (removeBrackets
    (collapseDots ((stripAccents (remove_html_tags (replaceNewlines l))).map lowerChar)))))

/-- The punctuation string of `normalize_text`
(`'''!()-[]{};:'"\,<>./?@#$%^&*_~'''`): each of these characters is
replaced by a space. -/
def punctuations : List Char :=
  [ '!', '(', ')', '-', '[', ']', '\x7b', '\x7d', ';', ':', '\x27', '"',
    '\\', ',', '<', '>', '.', '/', '?', '@', '#', '$', '%', '^', '&', '*',
    '_', '~' ]

/-- The punctuation-replacement loop of `normalize_text`. -/
def replacePunct (l : List Char) : List Char :=
  l.map (fun c => if c ∈ punctuations then ' ' else c)

/-- `re.sub(r'\s+', ' ', s)`: every maximal whitespace run becomes one
space (a whitespace character directly followed by more whitespace is
dropped; the last of a run becomes the space). -/
def collapseWhitespace : List Char → List Char
  | [] => []
  | [c] => if isPySpace c then [' '] else [c]
  | c :: d :: rest =>
    if isPySpace c && isPySpace d then collapseWhitespace (d :: rest)
    else if isPySpace c then ' ' :: collapseWhitespace (d :: rest)
    else c :: collapseWhitespace (d :: rest)

/-- The full cleaning pipeline of `normalize_text` after the empty-input
guard: `text_cleaning`, punctuation replacement, whitespace collapsing,
strip. -/
def cleanedForm (l : List Char) : List Char :=
  stripChars (collapseWhitespace (replacePunct (text_cleaning l)))

/-- `normalize_text` from transcription_normalizer.py. -/
def normalize_text (s : String) : Option String :=
  if stripChars s.data = [] then none
  else
    let n := cleanedForm s.data
    if n = [] then none else some (String.mk n)

/-- Inner recursion of the Levenshtein distance: `levxs` is the distance
from the tail `xs` of the first string, `xslen` its length; the argument
list is the remaining suffix of the second string. -/
def levGo (levxs : List Char → Nat) (x : Char) (xslen : Nat) : List Char → Nat
  | [] => xslen + 1
  | y :: ys =>
    if x = y then levxs ys
    else 1 + min (levxs (y :: ys)) (min (levGo levxs x xslen ys) (levxs ys))

/-- Levenshtein edit distance with unit costs, the distance computed by
textdistance's `levenshtein`. -/
def lev : List Char → List Char → Nat
  | [], ys => ys.length
  | x :: xs, ys => levGo (lev xs) x xs.length ys

/-- textdistance `levenshtein.normalized_similarity`:
`1 - distance / max(len(a), len(b))` (and `1` when both are empty). -/
def normalized_similarity (a b : List Char) : ℚ :=
  if max a.length b.length = 0 then 1
  else 1 - (lev a b : ℚ) / (max a.length b.length : ℚ)

/-- `calculate_similarity` from transcription_validator.py: `0.0` when
either text is falsy or empty after stripping, otherwise the normalized
Levenshtein similarity of the stripped texts, over exact rationals. -/
def calculate_similarity (text1 text2 : String) : ℚ :=
  if text1 = "" ∨ text2 = "" then 0
  else if stripChars text1.data = [] ∨ stripChars text2.data = [] then 0
  else normalized_similarity (stripChars text1.data) (stripChars text2.data)

/-- The three outcomes of the per-pair classification in
`process_validation`. -/
inductive Verdict
  | approved
  | rejected
  | invalid
deriving DecidableEq, Repr

/-- Python truthiness test applied to a stored normalized-text field:
falsy when the field is `None` or the empty string. -/
def isFalsy : Option String → Bool
  | none => true
  | some s => s = ""

/-- The classification performed by one iteration of the loop in
`process_validation`: invalid when either normalized text is falsy,
otherwise approved exactly when the similarity of the two normalized
texts reaches the threshold. -/
def verdict (lgrisN freds0N : Option String) (threshold : ℚ) : Verdict :=
  if isFalsy lgrisN || isFalsy freds0N then .invalid
  else if threshold ≤ calculate_similarity (lgrisN.getD "") (freds0N.getD "") then .approved
  else .rejected

/-- One entry of `normalized_pairs` as written by
`process_segments_folder` and read back by `process_validation`. -/
structure PairData where
  lgris_original : Option String
  lgris_normalized : Option String
  freds0_original : Option String
  freds0_normalized : Option String
  segment_filename : String
deriving DecidableEq, Repr

/-- One row of the approved dataset
(`filename, lgris_text, freds0_text, similarity`). -/
structure DatasetRow where
  filename : String
  lgris_text : String
  freds0_text : String
  similarity : ℚ
deriving DecidableEq, Repr

/-- The four counters kept by the loop of `process_validation`. -/
structure ValidationCounts where
  total : Nat
  approved : Nat
  rejected : Nat
  invalid : Nat
deriving DecidableEq, Repr

/-- One iteration of the loop of `process_validation`: bump `total`, then
either count the pair invalid, or score it and count it approved (also
emitting a dataset row built from the ORIGINAL texts) or rejected. -/
def processPair (threshold : ℚ) (st : ValidationCounts × List DatasetRow)
    (p : String × PairData) : ValidationCounts × List DatasetRow :=
  let counts := st.1
  let rows := st.2
  let d := p.2
  if isFalsy d.lgris_normalized || isFalsy d.freds0_normalized then
    ({ counts with total := counts.total + 1, invalid := counts.invalid + 1 }, rows)
  else
    let s := calculate_similarity (d.lgris_normalized.getD "") (d.freds0_normalized.getD "")
    if threshold ≤ s then
      ({ counts with total := counts.total + 1, approved := counts.approved + 1 },
        rows ++ [{ filename := p.1 ++ ".wav",
                   lgris_text := d.lgris_original.getD "",
                   freds0_text := d.freds0_original.getD "",
                   similarity := s }])
    else
      ({ counts with total := counts.total + 1, rejected := counts.rejected + 1 }, rows)

/-- The statistics and row-collection loop of `process_validation` over
the normalized pairs of one directory. -/
def process_validation (pairs : List (String × PairData)) (threshold : ℚ) :
    ValidationCounts × List DatasetRow :=
  pairs.foldl (processPair threshold) (⟨0, 0, 0, 0⟩, [])

/-- The `transcriptions` mapping of one engine's result file: segment id
to record, where the record's `text` field may itself be absent
(`entry.get('text')` then yields `None`). -/
abbrev Transcriptions := List (String × Option String)

/-- `sorted(set(lgris.keys()) | set(freds0.keys()))`: the sorted union of
segment ids seen on either side, in code-point lexicographic order (the
order of Python `sorted`), computed on the character lists. -/
def allIds (lgris freds0 : Transcriptions) : List String :=
  ((lgris.map Prod.fst ++ freds0.map Prod.fst).dedup).insertionSort
    (fun a b => ¬ b.data < a.data)

/-- The body of the per-id loop of `process_segments_folder`: fetch each
side's record (empty when the id is absent), read its `text` field, and
normalize it unless it is falsy. -/
def buildPair (lgris freds0 : Transcriptions) (segment_id : String) : PairData :=
  let lgris_original := (lgris.lookup segment_id).join
  let freds0_original := (freds0.lookup segment_id).join
  let lgris_normalized :=
    match lgris_original with
    | none => none
    | some s => if s = "" then none else normalize_text s
  let freds0_normalized :=
    match freds0_original with
    | none => none
    | some s => if s = "" then none else normalize_text s
  { lgris_original := lgris_original,
    lgris_normalized := lgris_normalized,
    freds0_original := freds0_original,
    freds0_normalized := freds0_normalized,
    segment_filename := segment_id ++ ".wav" }

/-- The `normalized_pairs` table built by `process_segments_folder`: one
entry per segment id in the sorted union of the two key sets. -/
def build_normalized_pairs (lgris freds0 : Transcriptions) : List (String × PairData) :=
  (allIds lgris freds0).map (fun segment_id => (segment_id, buildPair lgris freds0 segment_id))

/-- One segments directory as `process_segments_folder` sees it: each
transcription file is either absent (`none`), present but unusable —
unparseable or falsy — (`some none`), or parsed (`some (some t)`);
`writeOk` tells whether saving `normalized_transcriptions.json`
succeeds. -/
structure SegDir where
  name : String
  lgrisFile : Option (Option Transcriptions)
  freds0File : Option (Option Transcriptions)
  writeOk : Bool
deriving DecidableEq

/-- `process_segments_folder` from transcription_normalizer.py: on any
failure (a required file absent, a file unusable, or the output write
failing) it reports failure and writes no pairs; otherwise it writes and
returns the normalized pairs. -/
def process_segments_folder (d : SegDir) : Option (List (String × PairData)) :=
  match d.lgrisFile with
  | none => none
  | some lgrisParse =>
    match d.freds0File with
    | none => none
    | some freds0Parse =>
      match lgrisParse, freds0Parse with
      | some lgris, some freds0 =>
        if d.writeOk then some (build_normalized_pairs lgris freds0) else none
      | _, _ => none

/-- `batch_process_all` from transcription_normalizer.py: `os.walk` visits
a directory only when BOTH transcription files are listed in it; for each
visited directory it runs `process_segments_folder`, counting successes.
The second component is the trace of visited directories with each
outcome; the printed run summary is only the success count. -/
def batchStep (acc : Nat × List (String × Bool)) (d : SegDir) :
    Nat × List (String × Bool) :=
  if d.lgrisFile.isSome && d.freds0File.isSome then
    ((if (process_segments_folder d).isSome then acc.1 + 1 else acc.1),
      acc.2 ++ [(d.name, (process_segments_folder d).isSome)])
  else acc

/-- The fold of `batch_process_all` over the discovered directories. -/
def batch_process_all (dirs : List SegDir) : Nat × List (String × Bool) :=
  dirs.foldl batchStep (0, [])

/-- Python dict assignment `m[k] = v` on an association list: replace the
entry in place if the key is present, append otherwise. -/
def dictInsert (m : List (String × DatasetRow)) (k : String) (v : DatasetRow) :
    List (String × DatasetRow) :=
  match m with
  | [] => [(k, v)]
  | (k0, v0) :: rest => if k0 = k then (k, v) :: rest else (k0, v0) :: dictInsert rest k v

/-- The merge loop of `consolidate_datasets`: start from the existing
dataset and upsert every new row keyed by its filename
(`combined_data[filename] = new_entry`). -/
def consolidate (existing : List (String × DatasetRow)) (new_rows : List DatasetRow) :
    List (String × DatasetRow) :=
  new_rows.foldl (fun acc r => dictInsert acc r.filename r) existing

/-- The state of the persisted `final_dataset.csv`: absent, present but
unreadable (the csv read raises), or readable with the given rows. -/
inductive DatasetFile
  | absent
  | unreadable
  | content (rows : List (String × DatasetRow))
deriving DecidableEq

/-- `load_existing_dataset` from transcription_validator.py: an absent
file yields an empty dict, and a read error is caught and ALSO yields an
empty dict — the error does not propagate. -/
def load_existing_dataset : DatasetFile → List (String × DatasetRow)
  | .absent => []
  | .unreadable => []
  | .content rows => rows

/-- `consolidate_datasets` from transcription_validator.py: load whatever
`load_existing_dataset` returns, merge the new rows into it, and always
rewrite the file; a write error is caught and swallowed.  The result is
the new file state together with whether an error propagated to the
caller — which never happens. -/
def consolidate_datasets (file : DatasetFile) (all_approved_data : List DatasetRow)
    (writeSucceeds : Bool) : DatasetFile × Bool :=
  let existing := load_existing_dataset file
  let final := consolidate existing all_approved_data
  if writeSucceeds then (.content final, false) else (file, false)

/-- Engine A (lgris) transcriptions of the end-to-end scenario of the
spec. -/
def scenarioLgris : Transcriptions :=
  [("a_0", some "ola mundo"), ("a_1", some "bom dia"), ("a_2", some "")]

/-- Engine B (freds0) transcriptions of the end-to-end scenario of the
spec. -/
def scenarioFreds0 : Transcriptions :=
  [("a_0", some "olá mundo!"), ("a_1", some "boa tarde"), ("a_2", some "teste")]

/-- A segments directory whose freds0 result file is absent. -/
def dirA : SegDir :=
  { name := "A",
    lgrisFile := some (some [("a_0", some "ola")]),
    freds0File := none,
    writeOk := true }

/-- A segments directory with both result files present and parseable. -/
def dirB : SegDir :=
  { name := "B",
    lgrisFile := some (some [("b_0", some "oi")]),
    freds0File := some (some [("b_0", some "oi")]),
    writeOk := true }

/-- A newly approved row used in the persistence-failure scenario. -/
def bugRow : DatasetRow :=
  { filename := "f2.wav", lgris_text := "x", freds0_text := "y", similarity := 1 }

/-- Existing dataset of the merge-preservation scenario: rows f1, f2, f3. -/
def existingEx : List (String × DatasetRow) :=
  [ ("f1.wav", { filename := "f1.wav", lgris_text := "t1", freds0_text := "u1", similarity := 1 }),
    ("f2.wav", { filename := "f2.wav", lgris_text := "t2", freds0_text := "u2", similarity := 1 }),
    ("f3.wav", { filename := "f3.wav", lgris_text := "t3", freds0_text := "u3", similarity := 1 }) ]

/-- New batch of the merge-preservation scenario: a replacement for f2 and
a fresh f4. -/
def newRowsEx : List DatasetRow :=
  [ { filename := "f2.wav", lgris_text := "t2new", freds0_text := "u2new", similarity := 1 },
    { filename := "f4.wav", lgris_text := "t4", freds0_text := "u4", similarity := 1 } ]

/-! ## Theorems -/

/-- Each `processPair` step bumps `total` by one, bumps exactly one of the
three outcome counters, and appends a row exactly when it approves. -/
theorem processPair_counts (threshold : ℚ) (st : ValidationCounts × List DatasetRow)
    (p : String × PairData) :
    (processPair threshold st p).1.total = st.1.total + 1
    ∧ (processPair threshold st p).1.approved + (processPair threshold st p).1.rejected
        + (processPair threshold st p).1.invalid
      = st.1.approved + st.1.rejected + st.1.invalid + 1
    ∧ (processPair threshold st p).2.length + st.1.approved
      = st.2.length + (processPair threshold st p).1.approved := by
  unfold processPair
  by_cases h1 : (isFalsy p.2.lgris_normalized || isFalsy p.2.freds0_normalized) = true
  · simp [h1]
    omega
  · by_cases h2 : threshold ≤
      calculate_similarity (p.2.lgris_normalized.getD "") (p.2.freds0_normalized.getD "")
    · simp [h1, h2]
      omega
    · simp [h1, h2]
      omega

/-- Invariant of the whole validation fold, from any starting state. -/
theorem process_validation_loop (threshold : ℚ) (pairs : List (String × PairData)) :
    ∀ st : ValidationCounts × List DatasetRow,
      (pairs.foldl (processPair threshold) st).1.total = st.1.total + pairs.length
      ∧ (pairs.foldl (processPair threshold) st).1.approved
          + (pairs.foldl (processPair threshold) st).1.rejected
          + (pairs.foldl (processPair threshold) st).1.invalid
        = st.1.approved + st.1.rejected + st.1.invalid + pairs.length
      ∧ (pairs.foldl (processPair threshold) st).2.length + st.1.approved
        = st.2.length + (pairs.foldl (processPair threshold) st).1.approved := by
  induction pairs with
  | nil =>
    intro st
    simp
  | cons p ps ih =>
    intro st
    have hstep := processPair_counts threshold st p
    have hrec := ih (processPair threshold st p)
    simp only [List.foldl_cons, List.length_cons] at *
    omega

/-- C9: the counts reported by one validation run satisfy
approved + rejected + invalid = total, total is the number of pairs
processed, and the number of dataset rows emitted equals the approved
count. -/
theorem validation_counts_partition (pairs : List (String × PairData)) (threshold : ℚ) :
    (process_validation pairs threshold).1.approved
        + (process_validation pairs threshold).1.rejected
        + (process_validation pairs threshold).1.invalid
      = (process_validation pairs threshold).1.total
    ∧ (process_validation pairs threshold).1.total = pairs.length
    ∧ (process_validation pairs threshold).2.length
      = (process_validation pairs threshold).1.approved := by
  have h := process_validation_loop threshold pairs (⟨0, 0, 0, 0⟩, [])
  unfold process_validation
  simp only [List.length_nil] at h
  omega

/-- The loop of `process_validation` counts each pair under exactly the
category that `verdict` assigns it. -/
theorem processPair_verdict (threshold : ℚ) (st : ValidationCounts × List DatasetRow)
    (p : String × PairData) :
    (processPair threshold st p).1.approved = st.1.approved
        + (if verdict p.2.lgris_normalized p.2.freds0_normalized threshold = .approved
           then 1 else 0)
    ∧ (processPair threshold st p).1.rejected = st.1.rejected
        + (if verdict p.2.lgris_normalized p.2.freds0_normalized threshold = .rejected
           then 1 else 0)
    ∧ (processPair threshold st p).1.invalid = st.1.invalid
        + (if verdict p.2.lgris_normalized p.2.freds0_normalized threshold = .invalid
           then 1 else 0) := by
  unfold processPair verdict
  by_cases h1 : (isFalsy p.2.lgris_normalized || isFalsy p.2.freds0_normalized) = true
  · simp [h1]
  · by_cases h2 : threshold ≤
      calculate_similarity (p.2.lgris_normalized.getD "") (p.2.freds0_normalized.getD "")
    · simp [h1, h2]
    · simp [h1, h2]

/-- C4: the verdict is `invalid` exactly when either normalized text is
null or empty; otherwise it is `approved` exactly when the similarity of
the two normalized texts reaches the threshold (inclusive lower bound)
and `rejected` exactly when it falls below; throughout, the verdict is a
function of the two normalized texts and the threshold alone. -/
theorem verdict_spec (a b : Option String) (t : ℚ) :
    (verdict a b t = .invalid ↔ (isFalsy a || isFalsy b) = true)
    ∧ (verdict a b t = .approved ↔
        ((isFalsy a || isFalsy b) = false
          ∧ t ≤ calculate_similarity (a.getD "") (b.getD "")))
    ∧ (verdict a b t = .rejected ↔
        ((isFalsy a || isFalsy b) = false
          ∧ calculate_similarity (a.getD "") (b.getD "") < t)) := by
  unfold verdict
  by_cases h1 : (isFalsy a || isFalsy b) = true
  · simp [h1]
  · rw [Bool.not_eq_true] at h1
    by_cases h2 : t ≤ calculate_similarity (a.getD "") (b.getD "")
    · simp [h1, h2]
    · rw [not_le] at h2
      simp [h1, h2, not_le.mpr h2]

/-- C2 (code bug): with the persisted dataset present but unreadable and
one newly approved row, `consolidate_datasets` completes normally — no
error propagates to the caller — and rewrites `final_dataset.csv` so that
it holds only the new row: whatever the unreadable file held is silently
lost.  A failing write is likewise swallowed. -/
theorem consolidate_persistence_swallowed :
    consolidate_datasets .unreadable [bugRow] true
        = (.content [("f2.wav", bugRow)], false)
    ∧ (consolidate_datasets (.content [("f1.wav", bugRow)]) [] false).2 = false := by
  exact ⟨rfl, rfl⟩

/-- The walker's per-directory trace: from any accumulator,
`batch_process_all`'s fold appends one outcome record for exactly the
directories listing both transcription files, in order. -/
theorem batch_trace_aux (dirs : List SegDir) :
    ∀ acc : Nat × List (String × Bool),
      (dirs.foldl batchStep acc).2
        = acc.2 ++ (dirs.filter (fun x => x.lgrisFile.isSome && x.freds0File.isSome)).map
            (fun x => (x.name, (process_segments_folder x).isSome)) := by
  induction dirs with
  | nil =>
    intro acc
    simp
  | cons d ds ih =>
    intro acc
    by_cases h : (d.lgrisFile.isSome && d.freds0File.isSome) = true
    · simp [batchStep, h, ih]
    · simp [batchStep, h, ih]

/-- C3 as amended: a directory missing a required transcription file makes
`process_segments_folder` fail, writing no pairs and contributing no rows;
but `batch_process_all` visits only directories where both files are
present, so such a directory is silently skipped — it appears nowhere in
the walker's records — while every qualifying directory is still
processed. -/
theorem missing_input_handling (dirs : List SegDir) (d : SegDir)
    (h : d.lgrisFile = none ∨ d.freds0File = none) :
    process_segments_folder d = none
    ∧ (batch_process_all dirs).2
        = (dirs.filter (fun x => x.lgrisFile.isSome && x.freds0File.isSome)).map
            (fun x => (x.name, (process_segments_folder x).isSome))
    ∧ d ∉ dirs.filter (fun x => x.lgrisFile.isSome && x.freds0File.isSome) := by
  refine ⟨?_, ?_, ?_⟩
  · unfold process_segments_folder
    rcases h with h | h
    · rw [h]
    · rw [h]
      cases d.lgrisFile <;> rfl
  · have := batch_trace_aux dirs (0, [])
    simpa [batch_process_all] using this
  · intro hmem
    rw [List.mem_filter] at hmem
    rcases h with h | h <;> rw [h] at hmem <;> simp at hmem

/-- Witness for `missing_input_handling` at the concrete batch
`[dirA, dirB]`. -/
theorem missing_input_handling_witness :
    process_segments_folder dirA = none
    ∧ (batch_process_all [dirA, dirB]).2
        = ([dirA, dirB].filter (fun x => x.lgrisFile.isSome && x.freds0File.isSome)).map
            (fun x => (x.name, (process_segments_folder x).isSome))
    ∧ dirA ∉ [dirA, dirB].filter (fun x => x.lgrisFile.isSome && x.freds0File.isSome) :=
  missing_input_handling [dirA, dirB] dirA (Or.inr rfl)

/-- C3 counterexample: in the concrete batch `[dirA, dirB]`, where dirA
lacks the freds0 result file, processing dirA fails, yet the walker's run
record is `(1, [("B", true)])` — dirA is not recorded as failed; it is not
recorded at all, and the summary counts only successes. -/
theorem missing_input_not_recorded :
    process_segments_folder dirA = none
    ∧ batch_process_all [dirA, dirB] = (1, [("B", true)]) := by
  exact ⟨rfl, rfl⟩

/-- Looking a key up after a dict assignment: the assigned key now maps to
the assigned value; every other key is untouched. -/
theorem dictInsert_lookup (m : List (String × DatasetRow)) (k f : String) (v : DatasetRow) :
    (dictInsert m k v).lookup f = if f = k then some v else m.lookup f := by
  induction m with
  | nil =>
    by_cases h : f = k
    · simp [dictInsert, List.lookup, h]
    · have hb : (f == k) = false := beq_eq_false_iff_ne.mpr h
      simp [dictInsert, List.lookup, hb, h]
  | cons e rest ih =>
    obtain ⟨k0, v0⟩ := e
    rw [dictInsert]
    by_cases h0 : k0 = k
    · rw [if_pos h0]
      by_cases h : f = k
      · have hb : (f == k) = true := beq_iff_eq.mpr h
        simp [List.lookup, hb, h, h0]
      · have hb : (f == k) = false := beq_eq_false_iff_ne.mpr h
        have hb2 : (f == k0) = false := beq_eq_false_iff_ne.mpr (h0 ▸ h)
        simp [List.lookup, hb, hb2, h]
    · rw [if_neg h0]
      by_cases he : f = k0
      · have hb2 : (f == k0) = true := beq_iff_eq.mpr he
        have h : ¬ f = k := fun hh => h0 (he ▸ hh)
        simp [List.lookup, hb2, ih, h]
      · have hb2 : (f == k0) = false := beq_eq_false_iff_ne.mpr he
        simp [List.lookup, hb2, ih]

/-- Keys after a dict assignment: unchanged when the key was present,
extended by the key otherwise. -/
theorem dictInsert_keys (m : List (String × DatasetRow)) (k : String) (v : DatasetRow) :
    (dictInsert m k v).map Prod.fst =
      if k ∈ m.map Prod.fst then m.map Prod.fst else m.map Prod.fst ++ [k] := by
  induction m with
  | nil => simp [dictInsert]
  | cons e rest ih =>
    rw [dictInsert]
    by_cases h0 : e.1 = k
    · simp [h0]
    · simp only [List.map_cons, List.mem_cons]
      rw [if_neg h0]
      by_cases hk : k ∈ rest.map Prod.fst
      · simp [ih, hk, Ne.symm h0]
      · simp [ih, hk, Ne.symm h0]

/-- The merge loop, observed through lookups: a filename carried by some
new row maps to the LAST new row carrying it; every other filename keeps
its existing binding. -/
theorem consolidate_lookup (new_rows : List DatasetRow) :
    ∀ (existing : List (String × DatasetRow)) (f : String),
      (consolidate existing new_rows).lookup f =
        (new_rows.reverse.find? (fun r => r.filename = f)).or (existing.lookup f) := by
  induction new_rows with
  | nil =>
    intro E f
    simp [consolidate]
  | cons r N ih =>
    intro E f
    have h1 : consolidate E (r :: N) = consolidate (dictInsert E r.filename r) N := rfl
    rw [h1, ih, List.reverse_cons, List.find?_append]
    cases hfind : N.reverse.find? (fun r2 => decide (r2.filename = f)) with
    | some r2 => simp [hfind]
    | none =>
      by_cases h : r.filename = f
      · simp [hfind, dictInsert_lookup, h]
      · simp [hfind, dictInsert_lookup, h, Ne.symm h]

/-- The key set of the merged dataset is the union of the existing keys
and the new filenames. -/
theorem consolidate_keys (new_rows : List DatasetRow) :
    ∀ (existing : List (String × DatasetRow)) (f : String),
      f ∈ (consolidate existing new_rows).map Prod.fst ↔
        f ∈ existing.map Prod.fst ∨ f ∈ new_rows.map DatasetRow.filename := by
  induction new_rows with
  | nil =>
    intro E f
    simp [consolidate]
  | cons r N ih =>
    intro E f
    have h1 : consolidate E (r :: N) = consolidate (dictInsert E r.filename r) N := rfl
    rw [h1, ih, dictInsert_keys]
    by_cases hk : r.filename ∈ E.map Prod.fst
    · rw [if_pos hk]
      simp only [List.map_cons, List.mem_cons]
      constructor
      · rintro (h | h)
        · exact Or.inl h
        · exact Or.inr (Or.inr h)
      · rintro (h | h | h)
        · exact Or.inl h
        · subst h
          exact Or.inl hk
        · exact Or.inr h
    · rw [if_neg hk]
      simp only [List.mem_append, List.mem_singleton, List.map_cons, List.mem_cons]
      tauto

/-- Merging never introduces a duplicate filename. -/
theorem consolidate_nodup (new_rows : List DatasetRow) :
    ∀ existing : List (String × DatasetRow),
      (existing.map Prod.fst).Nodup → ((consolidate existing new_rows).map Prod.fst).Nodup := by
  induction new_rows with
  | nil =>
    intro E hE
    exact hE
  | cons r N ih =>
    intro E hE
    have h1 : consolidate E (r :: N) = consolidate (dictInsert E r.filename r) N := rfl
    rw [h1]
    refine ih _ ?_
    rw [dictInsert_keys]
    by_cases hk : r.filename ∈ E.map Prod.fst
    · rwa [if_pos hk]
    · rw [if_neg hk]
      simp [List.nodup_append, hE, hk]

/-- C1: the consolidated dataset maps each filename appearing among the
new rows to the (last) new row for it, entirely; every existing filename
not among the new rows keeps its existing row unchanged; no existing row
vanishes, no new filename is dropped, and no filename appears twice. -/
theorem consolidate_merge_contract (existing : List (String × DatasetRow))
    (new_rows : List DatasetRow) (hE : (existing.map Prod.fst).Nodup) :
    ((consolidate existing new_rows).map Prod.fst).Nodup
    ∧ (∀ f : String,
        f ∈ (consolidate existing new_rows).map Prod.fst ↔
          f ∈ existing.map Prod.fst ∨ f ∈ new_rows.map DatasetRow.filename)
    ∧ (∀ (f : String) (r : DatasetRow),
        new_rows.reverse.find? (fun r2 => r2.filename = f) = some r →
          (consolidate existing new_rows).lookup f = some r)
    ∧ (∀ f : String, f ∉ new_rows.map DatasetRow.filename →
        (consolidate existing new_rows).lookup f = existing.lookup f) := by
  refine ⟨consolidate_nodup new_rows existing hE,
    fun f => consolidate_keys new_rows existing f, ?_, ?_⟩
  · intro f r hfind
    rw [consolidate_lookup new_rows existing f, hfind]
    rfl
  · intro f hf
    rw [consolidate_lookup new_rows existing f]
    have hnone : new_rows.reverse.find? (fun r2 => decide (r2.filename = f)) = none := by
      rw [List.find?_eq_none]
      intro r hr
      simp only [decide_eq_true_eq]
      intro hrf
      exact hf (hrf ▸ List.mem_map_of_mem DatasetRow.filename (List.mem_reverse.mp hr))
    rw [hnone]
    rfl

/-- Witness for `consolidate_merge_contract` on the spec's
merge-preservation scenario (existing f1, f2, f3 merged with f2-new and
f4). -/
theorem consolidate_merge_contract_witness :
    ((consolidate existingEx newRowsEx).map Prod.fst).Nodup
    ∧ (∀ f : String,
        f ∈ (consolidate existingEx newRowsEx).map Prod.fst ↔
          f ∈ existingEx.map Prod.fst ∨ f ∈ newRowsEx.map DatasetRow.filename)
    ∧ (∀ (f : String) (r : DatasetRow),
        newRowsEx.reverse.find? (fun r2 => r2.filename = f) = some r →
          (consolidate existingEx newRowsEx).lookup f = some r)
    ∧ (∀ f : String, f ∉ newRowsEx.map DatasetRow.filename →
        (consolidate existingEx newRowsEx).lookup f = existingEx.lookup f) :=
  consolidate_merge_contract existingEx newRowsEx (by decide)

/-- `lev` on an empty second string is the length of the first. -/
theorem lev_nil_right (xs : List Char) : lev xs [] = xs.length := by
  cases xs <;> rfl

/-- The standard Levenshtein recurrence, recovered from the structural
definition. -/
theorem lev_cons_cons (x y : Char) (xs ys : List Char) :
    lev (x :: xs) (y :: ys) =
      if x = y then lev xs ys
      else 1 + min (lev xs (y :: ys)) (min (lev (x :: xs) ys) (lev xs ys)) := rfl

/-- `lev` of a list with itself vanishes. -/
theorem lev_self (l : List Char) : lev l l = 0 := by
  induction l with
  | nil => rfl
  | cons c rest ih =>
    rw [lev_cons_cons]
    simp [ih]

/-- Fuelled form of the bound `lev a b ≤ max |a| |b|`. -/
theorem lev_le_max_aux : ∀ (n : Nat) (a b : List Char), a.length + b.length ≤ n →
    lev a b ≤ max a.length b.length := by
  intro n
  induction n with
  | zero =>
    intro a b h
    have ha : a = [] := List.length_eq_zero.mp (by omega)
    have hb : b = [] := List.length_eq_zero.mp (by omega)
    subst ha
    subst hb
    simp [lev]
  | succ n ih =>
    intro a b h
    match a, b with
    | [], bs =>
      have h0 : lev [] bs = bs.length := rfl
      rw [h0]
      exact le_max_right _ _
    | c :: cs, [] =>
      rw [lev_nil_right]
      exact le_max_left _ _
    | x :: xs, y :: ys =>
      rw [lev_cons_cons]
      have h3 := ih xs ys (by simp at h ⊢; omega)
      by_cases hxy : x = y
      · rw [if_pos hxy]
        simp only [List.length_cons]
        omega
      · rw [if_neg hxy]
        simp only [List.length_cons]
        omega

/-- `lev a b ≤ max |a| |b|`. -/
theorem lev_le_max (a b : List Char) : lev a b ≤ max a.length b.length :=
  lev_le_max_aux (a.length + b.length) a b le_rfl

/-- Fuelled form of the symmetry of `lev`. -/
theorem lev_comm_aux : ∀ (n : Nat) (a b : List Char), a.length + b.length ≤ n →
    lev a b = lev b a := by
  intro n
  induction n with
  | zero =>
    intro a b h
    have ha : a = [] := List.length_eq_zero.mp (by omega)
    have hb : b = [] := List.length_eq_zero.mp (by omega)
    subst ha
    subst hb
    rfl
  | succ n ih =>
    intro a b h
    match a, b with
    | [], bs =>
      rw [lev_nil_right]
      rfl
    | c :: cs, [] =>
      rw [lev_nil_right]
      rfl
    | x :: xs, y :: ys =>
      rw [lev_cons_cons, lev_cons_cons]
      by_cases hxy : x = y
      · rw [if_pos hxy, if_pos hxy.symm]
        exact ih xs ys (by simp at h ⊢; omega)
      · rw [if_neg hxy, if_neg (Ne.symm hxy)]
        have e1 := ih xs (y :: ys) (by simp at h ⊢; omega)
        have e2 := ih (x :: xs) ys (by simp at h ⊢; omega)
        have e3 := ih xs ys (by simp at h ⊢; omega)
        rw [← e1, ← e2, ← e3]
        omega

/-- `lev` is symmetric. -/
theorem lev_comm (a b : List Char) : lev a b = lev b a :=
  lev_comm_aux (a.length + b.length) a b le_rfl

/-- The normalized similarity always lands in [0, 1]. -/
theorem normalized_similarity_range (x y : List Char) :
    0 ≤ normalized_similarity x y ∧ normalized_similarity x y ≤ 1 := by
  unfold normalized_similarity
  by_cases hm : max x.length y.length = 0
  · rw [if_pos hm]
    norm_num
  · rw [if_neg hm]
    have hd : lev x y ≤ max x.length y.length := lev_le_max x y
    have hmpos : (0 : ℚ) < (max x.length y.length : ℚ) := by
      exact_mod_cast Nat.pos_of_ne_zero hm
    constructor
    · have hle : (lev x y : ℚ) / (max x.length y.length : ℚ) ≤ 1 := by
        rw [div_le_one hmpos]
        exact_mod_cast hd
      linarith
    · have h0 : 0 ≤ (lev x y : ℚ) / (max x.length y.length : ℚ) := by positivity
      linarith

/-- The normalized similarity is symmetric. -/
theorem normalized_similarity_comm (x y : List Char) :
    normalized_similarity x y = normalized_similarity y x := by
  unfold normalized_similarity
  rw [lev_comm, Nat.max_comm, max_comm ((x.length : ℚ)) ((y.length : ℚ))]

/-- C7: the similarity score is a rational in [0.0, 1.0]; it is 0.0
whenever either input is empty after trimming (in particular for empty
input); it is symmetric; and it is 1.0 when the trimmed inputs are
identical and non-empty. -/
theorem similarity_contract (a b : String) :
    (0 ≤ calculate_similarity a b ∧ calculate_similarity a b ≤ 1)
    ∧ ((stripChars a.data = [] ∨ stripChars b.data = []) → calculate_similarity a b = 0)
    ∧ calculate_similarity a b = calculate_similarity b a
    ∧ (stripChars a.data = stripChars b.data → stripChars a.data ≠ [] →
        calculate_similarity a b = 1) := by
  refine ⟨?_, ?_, ?_, ?_⟩
  · unfold calculate_similarity
    split_ifs with h1 h2
    · norm_num
    · norm_num
    · exact normalized_similarity_range _ _
  · intro h
    unfold calculate_similarity
    split_ifs with h1
    · rfl
    · rfl
  · unfold calculate_similarity
    by_cases h1 : a = "" ∨ b = ""
    · rw [if_pos h1, if_pos (Or.symm h1)]
    · rw [if_neg h1, if_neg (fun hh => h1 (Or.symm hh))]
      by_cases h2 : stripChars a.data = [] ∨ stripChars b.data = []
      · rw [if_pos h2, if_pos (Or.symm h2)]
      · rw [if_neg h2, if_neg (fun hh => h2 (Or.symm hh))]
        exact normalized_similarity_comm _ _
  · intro heq hne
    unfold calculate_similarity
    have ha : ¬ a = "" := by
      intro hh
      apply hne
      rw [hh]
      rfl
    have hbne : stripChars b.data ≠ [] := heq ▸ hne
    have hb : ¬ b = "" := by
      intro hh
      apply hbne
      rw [hh]
      rfl
    rw [if_neg (by tauto), if_neg (by tauto), heq]
    unfold normalized_similarity
    rw [lev_self]
    have hm : max (stripChars b.data).length (stripChars b.data).length ≠ 0 := by
      simp only [Nat.max_self]
      intro hh
      exact hbne (List.length_eq_zero.mp hh)
    rw [if_neg hm]
    simp

/-- Witness for `similarity_contract`: a whitespace-only input scores 0
against anything, and identical non-empty inputs score 1. -/
theorem similarity_contract_witness :
    calculate_similarity "x" " " = 0 ∧ calculate_similarity "ab" "ab" = 1 :=
  ⟨(similarity_contract "x" " ").2.1 (Or.inr (by decide)),
    (similarity_contract "ab" "ab").2.2.2 rfl (by decide)⟩

/-- A key outside the key set of an association list has no binding. -/
theorem lookup_eq_none_of_not_mem (l : Transcriptions) (id : String)
    (h : id ∉ l.map Prod.fst) : l.lookup id = none := by
  induction l with
  | nil => rfl
  | cons e rest ih =>
    obtain ⟨k0, v0⟩ := e
    simp only [List.map_cons, List.mem_cons] at h
    push_neg at h
    have hb : (id == k0) = false := beq_eq_false_iff_ne.mpr h.1
    simp [List.lookup, hb, ih h.2]

/-- The ids of the emitted pair list are exactly `allIds`. -/
theorem build_normalized_pairs_fst (L F : Transcriptions) :
    (build_normalized_pairs L F).map Prod.fst = allIds L F := by
  unfold build_normalized_pairs
  induction allIds L F with
  | nil => rfl
  | cons x xs ih => simpa using ih

/-- C8: the aggregator emits exactly one pair record per segment id in
the union of the two engines' key sets — the pair count is the cardinal
of the union — and an id present on only one side yields a pair whose
missing side is null, both in the original and the normalized field. -/
theorem union_completeness (L F : Transcriptions) :
    (build_normalized_pairs L F).length
        = ((L.map Prod.fst).toFinset ∪ (F.map Prod.fst).toFinset).card
    ∧ (∀ id : String,
        ((build_normalized_pairs L F).map Prod.fst).count id
          = if id ∈ L.map Prod.fst ∨ id ∈ F.map Prod.fst then 1 else 0)
    ∧ (∀ id : String, id ∉ F.map Prod.fst →
        (buildPair L F id).freds0_original = none
          ∧ (buildPair L F id).freds0_normalized = none)
    ∧ (∀ id : String, id ∉ L.map Prod.fst →
        (buildPair L F id).lgris_original = none
          ∧ (buildPair L F id).lgris_normalized = none) := by
  have hperm : (allIds L F).Perm ((L.map Prod.fst ++ F.map Prod.fst).dedup) :=
    List.perm_insertionSort _ _
  refine ⟨?_, ?_, ?_, ?_⟩
  · rw [← List.toFinset_append, List.card_toFinset]
    unfold build_normalized_pairs
    rw [List.length_map]
    exact hperm.length_eq
  · intro id
    rw [build_normalized_pairs_fst, hperm.count_eq]
    by_cases hid : id ∈ L.map Prod.fst ∨ id ∈ F.map Prod.fst
    · rw [if_pos hid]
      exact List.count_eq_one_of_mem (List.nodup_dedup _)
        (List.mem_dedup.mpr (List.mem_append.mpr hid))
    · rw [if_neg hid]
      refine List.count_eq_zero_of_not_mem ?_
      rw [List.mem_dedup, List.mem_append]
      exact hid
  · intro id hid
    have h0 : F.lookup id = none := lookup_eq_none_of_not_mem F id hid
    constructor <;> simp [buildPair, h0]
  · intro id hid
    have h0 : L.lookup id = none := lookup_eq_none_of_not_mem L id hid
    constructor <;> simp [buildPair, h0]

/-- Witness for `union_completeness`: with engine B's map empty, every
pair's freds0 side is null, and an id absent from engine A's map has a
null lgris side. -/
theorem union_completeness_witness :
    ((buildPair [("a", some "x")] [] "a").freds0_original = none
      ∧ (buildPair [("a", some "x")] [] "a").freds0_normalized = none)
    ∧ ((buildPair [("a", some "x")] [] "zz").lgris_original = none
      ∧ (buildPair [("a", some "x")] [] "zz").lgris_normalized = none) :=
  ⟨(union_completeness [("a", some "x")] []).2.2.1 "a" (by decide),
    (union_completeness [("a", some "x")] []).2.2.2 "zz" (by decide)⟩

/-- The normalized pairs built from the scenario inputs, evaluated. -/
theorem scenario_pairs :
    build_normalized_pairs scenarioLgris scenarioFreds0 =
      [ ("a_0", { lgris_original := some "ola mundo", lgris_normalized := some "ola mundo",
                  freds0_original := some "olá mundo!", freds0_normalized := some "ola mundo",
                  segment_filename := "a_0.wav" }),
        ("a_1", { lgris_original := some "bom dia", lgris_normalized := some "bom dia",
                  freds0_original := some "boa tarde", freds0_normalized := some "boa tarde",
                  segment_filename := "a_1.wav" }),
        ("a_2", { lgris_original := some "", lgris_normalized := none,
                  freds0_original := some "teste", freds0_normalized := some "teste",
                  segment_filename := "a_2.wav" }) ] := by decide

/-- Identical normalized texts score exactly 1. -/
theorem sim_ola : calculate_similarity "ola mundo" "ola mundo" = 1 := by
  have h : lev (stripChars "ola mundo".data) (stripChars "ola mundo".data) = 0 := by decide
  have h9 : (stripChars "ola mundo".data).length = 9 := by decide
  unfold calculate_similarity normalized_similarity
  rw [if_neg (by decide), if_neg (by decide), if_neg (by decide), h, h9]
  norm_num

/-- The scenario's rejected pair scores exactly 1/3. -/
theorem sim_bomdia : calculate_similarity "bom dia" "boa tarde" = 1/3 := by
  have h : lev (stripChars "bom dia".data) (stripChars "boa tarde".data) = 6 := by decide
  have h7 : (stripChars "bom dia".data).length = 7 := by decide
  have h9 : (stripChars "boa tarde".data).length = 9 := by decide
  unfold calculate_similarity normalized_similarity
  rw [if_neg (by decide), if_neg (by decide), if_neg (by decide), h, h7, h9]
  norm_num

/-- C5: on the spec's end-to-end scenario with threshold 0.8, pair a_0
normalizes to "ola mundo" on both sides with similarity 1.0 and is
approved, a_1 is rejected, a_2 is invalid (engine A's empty text
normalizes to null), and the run counts total=3, approved=1, rejected=1,
invalid=1, emitting exactly the a_0 dataset row. -/
theorem end_to_end_scenario :
    (buildPair scenarioLgris scenarioFreds0 "a_0").lgris_normalized = some "ola mundo"
    ∧ (buildPair scenarioLgris scenarioFreds0 "a_0").freds0_normalized = some "ola mundo"
    ∧ calculate_similarity "ola mundo" "ola mundo" = 1
    ∧ verdict (buildPair scenarioLgris scenarioFreds0 "a_0").lgris_normalized
        (buildPair scenarioLgris scenarioFreds0 "a_0").freds0_normalized (8/10) = .approved
    ∧ verdict (buildPair scenarioLgris scenarioFreds0 "a_1").lgris_normalized
        (buildPair scenarioLgris scenarioFreds0 "a_1").freds0_normalized (8/10) = .rejected
    ∧ (buildPair scenarioLgris scenarioFreds0 "a_2").lgris_normalized = none
    ∧ verdict (buildPair scenarioLgris scenarioFreds0 "a_2").lgris_normalized
        (buildPair scenarioLgris scenarioFreds0 "a_2").freds0_normalized (8/10) = .invalid
    ∧ (process_validation (build_normalized_pairs scenarioLgris scenarioFreds0) (8/10)).1
        = { total := 3, approved := 1, rejected := 1, invalid := 1 }
    ∧ (process_validation (build_normalized_pairs scenarioLgris scenarioFreds0) (8/10)).2
        = [{ filename := "a_0.wav", lgris_text := "ola mundo",
             freds0_text := "olá mundo!", similarity := 1 }] := by
  have hb0 : buildPair scenarioLgris scenarioFreds0 "a_0" =
      { lgris_original := some "ola mundo", lgris_normalized := some "ola mundo",
        freds0_original := some "olá mundo!", freds0_normalized := some "ola mundo",
        segment_filename := "a_0.wav" } := by decide
  have hb1 : buildPair scenarioLgris scenarioFreds0 "a_1" =
      { lgris_original := some "bom dia", lgris_normalized := some "bom dia",
        freds0_original := some "boa tarde", freds0_normalized := some "boa tarde",
        segment_filename := "a_1.wav" } := by decide
  have hb2 : buildPair scenarioLgris scenarioFreds0 "a_2" =
      { lgris_original := some "", lgris_normalized := none,
        freds0_original := some "teste", freds0_normalized := some "teste",
        segment_filename := "a_2.wav" } := by decide
  refine ⟨?_, ?_, sim_ola, ?_, ?_, ?_, ?_, ?_, ?_⟩
  · rw [hb0]
  · rw [hb0]
  · rw [hb0]
    unfold verdict
    have hc : (8/10 : ℚ) ≤
        calculate_similarity ((some "ola mundo").getD "") ((some "ola mundo").getD "") := by
      show (8/10 : ℚ) ≤ calculate_similarity "ola mundo" "ola mundo"
      rw [sim_ola]
      norm_num
    rw [if_neg (by decide), if_pos hc]
  · rw [hb1]
    unfold verdict
    have hc : ¬ (8/10 : ℚ) ≤
        calculate_similarity ((some "bom dia").getD "") ((some "boa tarde").getD "") := by
      show ¬ (8/10 : ℚ) ≤ calculate_similarity "bom dia" "boa tarde"
      rw [sim_bomdia]
      norm_num
    rw [if_neg (by decide), if_neg hc]
  · rw [hb2]
  · rw [hb2]
    unfold verdict
    rw [if_pos (by decide)]
  · rw [scenario_pairs]
    unfold process_validation
    simp only [List.foldl_cons, List.foldl_nil]
    have e1 : ¬ ("ola mundo" = "") := by decide
    have e2 : ¬ ("bom dia" = "") := by decide
    have e3 : ¬ ("boa tarde" = "") := by decide
    have e5 : ("a_0" ++ ".wav" : String) = "a_0.wav" := rfl
    norm_num [processPair, isFalsy, Option.getD_some, sim_ola, sim_bomdia, e1, e2, e3, e5]
  · rw [scenario_pairs]
    unfold process_validation
    simp only [List.foldl_cons, List.foldl_nil]
    have e1 : ¬ ("ola mundo" = "") := by decide
    have e2 : ¬ ("bom dia" = "") := by decide
    have e3 : ¬ ("boa tarde" = "") := by decide
    have e5 : ("a_0" ++ ".wav" : String) = "a_0.wav" := rfl
    norm_num [processPair, isFalsy, Option.getD_some, sim_ola, sim_bomdia, e1, e2, e3, e5]

/-- A character that accent stripping and lowercasing leave alone:
NFD-fixed, not a combining mark, lowercase-fixed. -/
def preChar (c : Char) : Prop :=
  nfdChar c = [c] ∧ isMn c = false ∧ lowerChar c = c

/-- A character of the final normalized output: additionally not a
replaced punctuation character, and whitespace only as the plain
space. -/
def cleanChar (c : Char) : Prop :=
  preChar c ∧ c ∉ punctuations ∧ (isPySpace c = true → c = ' ')

/-- Every non-mark character of an NFD decomposition is itself NFD-fixed. -/
theorem nfdPairs_base_fixed :
    ∀ p ∈ nfdPairs, ∀ d ∈ p.2, isMn d = false → nfdChar d = [d] := by decide

/-- Lowercase images are NFD-fixed, not marks, and lowercase-fixed. -/
theorem lowerPairs_image_fixed :
    ∀ p ∈ lowerPairs, nfdChar p.2 = [p.2] ∧ isMn p.2 = false ∧ lowerChar p.2 = p.2 := by
  decide

/-- The plain space is a clean character. -/
theorem cleanChar_space : cleanChar ' ' := by
  refine ⟨⟨by decide, by decide, by decide⟩, by decide, fun _ => rfl⟩

/-- Characters surviving accent stripping are NFD-fixed non-marks. -/
theorem stripAccents_chars (l : List Char) :
    ∀ c ∈ stripAccents l, nfdChar c = [c] ∧ isMn c = false := by
  intro c hc
  unfold stripAccents at hc
  rw [List.mem_filter] at hc
  obtain ⟨hmem, hmn⟩ := hc
  have hmn2 : isMn c = false := by simpa using hmn
  rw [List.mem_flatMap] at hmem
  obtain ⟨a, _, hca⟩ := hmem
  refine ⟨?_, hmn2⟩
  unfold nfdChar at hca
  cases hf : nfdPairs.find? (fun p => p.1 = a) with
  | some p =>
    rw [hf] at hca
    exact nfdPairs_base_fixed p (List.mem_of_find?_eq_some hf) c hca hmn2
  | none =>
    rw [hf] at hca
    have hce : c = a := by simpa using hca
    subst hce
    unfold nfdChar
    rw [hf]

/-- Lowercasing an NFD-fixed non-mark gives a `preChar`. -/
theorem lowerChar_preserves (c : Char) (h1 : nfdChar c = [c]) (h2 : isMn c = false) :
    preChar (lowerChar c) := by
  cases hf : lowerPairs.find? (fun p => p.1 = c) with
  | some p =>
    have hi := lowerPairs_image_fixed p (List.mem_of_find?_eq_some hf)
    have he : lowerChar c = p.2 := by
      unfold lowerChar
      rw [hf]
    rw [he]
    exact hi
  | none =>
    have he : lowerChar c = c := by
      unfold lowerChar
      rw [hf]
    rw [he]
    exact ⟨h1, h2, he⟩

/-- Every character after cleaning-and-lowering is a `preChar`. -/
theorem map_lowerChar_chars (l : List Char) :
    ∀ c ∈ (stripAccents l).map lowerChar, preChar c := by
  intro c hc
  rw [List.mem_map] at hc
  obtain ⟨a, ha, hfa⟩ := hc
  have := stripAccents_chars l a ha
  rw [← hfa]
  exact lowerChar_preserves a this.1 this.2

/-- `collapseDots` only keeps characters of its input. -/
theorem collapseDots_subset (l : List Char) : ∀ c0 ∈ collapseDots l, c0 ∈ l := by
  induction l with
  | nil => simp [collapseDots]
  | cons c rest ih =>
    cases rest with
    | nil => simp [collapseDots]
    | cons d rest2 =>
      intro c0 hc
      simp only [collapseDots] at hc
      by_cases hcond : (c = '.' && d = '.') = true
      · rw [if_pos hcond] at hc
        exact List.mem_cons_of_mem _ (ih c0 hc)
      · rw [if_neg hcond] at hc
        rcases List.mem_cons.mp hc with h | h
        · exact h ▸ List.mem_cons_self _ _
        · exact List.mem_cons_of_mem _ (ih c0 h)

/-- `collapseSpaceRuns` only keeps characters of its input. -/
theorem collapseSpaceRuns_subset (l : List Char) : ∀ c0 ∈ collapseSpaceRuns l, c0 ∈ l := by
  induction l with
  | nil => simp [collapseSpaceRuns]
  | cons c rest ih =>
    cases rest with
    | nil => simp [collapseSpaceRuns]
    | cons d rest2 =>
      intro c0 hc
      simp only [collapseSpaceRuns] at hc
      by_cases hcond : (c = ' ' && d = ' ') = true
      · rw [if_pos hcond] at hc
        exact List.mem_cons_of_mem _ (ih c0 hc)
      · rw [if_neg hcond] at hc
        rcases List.mem_cons.mp hc with h | h
        · exact h ▸ List.mem_cons_self _ _
        · exact List.mem_cons_of_mem _ (ih c0 h)

/-- `removeSpaceBeforePunct` only keeps characters of its input. -/
theorem removeSpaceBeforePunct_subset (l : List Char) :
    ∀ c0 ∈ removeSpaceBeforePunct l, c0 ∈ l := by
  induction l using removeSpaceBeforePunct.induct with
  | case1 c1 c2 c3 rest hcond ih =>
    intro c0 hc
    simp only [removeSpaceBeforePunct, hcond, if_true] at hc
    rcases List.mem_cons.mp hc with h | h
    · subst h
      simp
    · rcases List.mem_cons.mp h with h2 | h2
      · subst h2
        simp
      · have := ih c0 h2
        simp only [List.mem_cons] at this ⊢
        tauto
  | case2 c1 c2 c3 rest hcond ih =>
    intro c0 hc
    simp only [removeSpaceBeforePunct, hcond, if_false] at hc
    rcases List.mem_cons.mp hc with h | h
    · subst h
      simp
    · have := ih c0 h
      simp only [List.mem_cons] at this ⊢
      tauto
  | case3 c1 c2 hcond =>
    intro c0 hc
    simp only [removeSpaceBeforePunct, hcond, if_true] at hc
    simp only [List.mem_singleton] at hc
    subst hc
    simp
  | case4 c1 c2 hcond =>
    intro c0 hc
    simp only [removeSpaceBeforePunct, hcond, if_false] at hc
    exact hc
  | case5 l h1 h2 =>
    match l, h1, h2 with
    | [], _, _ => simp [removeSpaceBeforePunct]
    | [c], _, _ => simp [removeSpaceBeforePunct]
    | [c1, c2], _, h2 => exact absurd rfl (h2 c1 c2)
    | c1 :: c2 :: c3 :: rest, h1, _ => exact absurd rfl (h1 c1 c2 c3 rest)

/-- `stripChars` only keeps characters of its input. -/
theorem stripChars_subset (l : List Char) : ∀ c ∈ stripChars l, c ∈ l := by
  intro c hc
  unfold stripChars at hc
  rw [List.mem_reverse] at hc
  have h1 := (List.dropWhile_suffix isPySpace).sublist.subset hc
  rw [List.mem_reverse] at h1
  exact (List.dropWhile_suffix isPySpace).sublist.subset h1

/-- Characters of `collapseWhitespace`'s output: the space, or a
non-whitespace character of the input. -/
theorem collapseWhitespace_chars (l : List Char) :
    ∀ c0 ∈ collapseWhitespace l, c0 = ' ' ∨ (c0 ∈ l ∧ isPySpace c0 = false) := by
  induction l with
  | nil => simp [collapseWhitespace]
  | cons c rest ih =>
    cases rest with
    | nil =>
      intro c0 hc
      by_cases hws : isPySpace c = true
      · simp only [collapseWhitespace, hws, if_true, List.mem_singleton] at hc
        exact Or.inl hc
      · have hws2 : isPySpace c = false := by simpa using hws
        simp only [collapseWhitespace, hws2, Bool.false_eq_true, if_false,
          List.mem_singleton] at hc
        subst hc
        exact Or.inr ⟨List.mem_singleton.mpr rfl, hws2⟩
    | cons d rest2 =>
      intro c0 hc
      simp only [collapseWhitespace] at hc
      by_cases h1 : (isPySpace c && isPySpace d) = true
      · rw [if_pos h1] at hc
        rcases ih c0 hc with h | h
        · exact Or.inl h
        · exact Or.inr ⟨List.mem_cons_of_mem _ h.1, h.2⟩
      · rw [if_neg h1] at hc
        by_cases h2 : isPySpace c = true
        · rw [if_pos h2] at hc
          rcases List.mem_cons.mp hc with h | h
          · exact Or.inl h
          · rcases ih c0 h with h3 | h3
            · exact Or.inl h3
            · exact Or.inr ⟨List.mem_cons_of_mem _ h3.1, h3.2⟩
        · rw [if_neg h2] at hc
          rcases List.mem_cons.mp hc with h | h
          · subst h
            exact Or.inr ⟨List.mem_cons_self _ _, by simpa using h2⟩
          · rcases ih c0 h with h3 | h3
            · exact Or.inl h3
            · exact Or.inr ⟨List.mem_cons_of_mem _ h3.1, h3.2⟩

/-- Characters of `replacePunct`'s output: the space, or a
non-punctuation character of the input. -/
theorem replacePunct_chars (l : List Char) :
    ∀ c0 ∈ replacePunct l, c0 = ' ' ∨ (c0 ∈ l ∧ c0 ∉ punctuations) := by
  intro c0 hc
  unfold replacePunct at hc
  rw [List.mem_map] at hc
  obtain ⟨a, ha, hfa⟩ := hc
  subst hfa
  by_cases hp : a ∈ punctuations
  · rw [if_pos hp]
    exact Or.inl rfl
  · rw [if_neg hp]
    exact Or.inr ⟨ha, hp⟩

/-- Newline replacement is the identity on newline-free text. -/
theorem replaceNewlines_id (l : List Char) (h : ∀ c ∈ l, c ≠ '\n') :
    replaceNewlines l = l := by
  unfold replaceNewlines
  have h2 : ∀ a ∈ l, (if a = '\n' then ' ' else a) = id a := fun a ha => if_neg (h a ha)
  rw [List.map_congr_left h2, List.map_id]

/-- Tag removal is the identity on text without `<`. -/
theorem removeTagsGo_id (l : List Char) (h : '<' ∉ l) : removeTagsGo false l = l := by
  induction l with
  | nil => rfl
  | cons c rest ih =>
    simp only [List.mem_cons] at h
    push_neg at h
    have hcond : (c = '<' && '>' ∈ rest) = false := by
      have : ¬ c = '<' := fun hh => h.1 hh.symm
      simp [this]
    simp only [removeTagsGo, hcond, Bool.false_eq_true, if_false]
    rw [ih h.2]

/-- Accent stripping is the identity on NFD-fixed mark-free text. -/
theorem stripAccents_id (l : List Char) (h : ∀ c ∈ l, nfdChar c = [c] ∧ isMn c = false) :
    stripAccents l = l := by
  induction l with
  | nil => rfl
  | cons c rest ih =>
    have hc := h c (List.mem_cons_self _ _)
    have ih2 := ih (fun d hd => h d (List.mem_cons_of_mem _ hd))
    unfold stripAccents at ih2 ⊢
    rw [List.flatMap_cons, List.filter_append, hc.1]
    have hone : List.filter (fun c => !(isMn c)) [c] = [c] := by
      simp [hc.2]
    rw [hone, ih2, List.singleton_append]

/-- Lowercasing is the identity on lowercase-fixed text. -/
theorem map_lowerChar_id (l : List Char) (h : ∀ c ∈ l, lowerChar c = c) :
    l.map lowerChar = l := by
  have h2 : ∀ a ∈ l, lowerChar a = id a := h
  rw [List.map_congr_left h2, List.map_id]

/-- Period-run collapsing is the identity on period-free text. -/
theorem collapseDots_id (l : List Char) (h : ∀ c ∈ l, c ≠ '.') : collapseDots l = l := by
  induction l with
  | nil => rfl
  | cons c rest ih =>
    cases rest with
    | nil => rfl
    | cons d rest2 =>
      have hcond : (c = '.' && d = '.') = false := by
        simp [h c (List.mem_cons_self _ _)]
      simp only [collapseDots, hcond, Bool.false_eq_true, if_false]
      rw [ih (fun e he => h e (List.mem_cons_of_mem _ he))]

/-- Bracket removal is the identity on bracket-free text. -/
theorem removeBrackets_id (l : List Char)
    (h : ∀ c ∈ l, ¬(c = '(' ∨ c = ')' ∨ c = '[' ∨ c = ']')) : removeBrackets l = l := by
  unfold removeBrackets
  rw [List.filter_eq_self]
  intro a ha
  have ha2 := h a ha
  simp only [Bool.not_eq_true', Bool.or_eq_false_iff, decide_eq_false_iff_not]
  tauto

/-- Space-before-punctuation removal is the identity on text without the
sentence punctuation characters. -/
theorem removeSpaceBeforePunct_id (l : List Char) :
    (∀ c ∈ l, c ∉ sentencePuncts) → removeSpaceBeforePunct l = l := by
  induction l using removeSpaceBeforePunct.induct with
  | case1 c1 c2 c3 rest hcond ih =>
    intro h
    exfalso
    simp only [Bool.and_eq_true, decide_eq_true_eq] at hcond
    exact h c2 (by simp) hcond.1.2
  | case2 c1 c2 c3 rest hcond ih =>
    intro h
    simp only [removeSpaceBeforePunct]
    rw [if_neg hcond, ih (fun e he => h e (List.mem_cons_of_mem _ he))]
  | case3 c1 c2 hcond =>
    intro h
    exfalso
    simp only [Bool.and_eq_true, decide_eq_true_eq] at hcond
    exact h c2 (by simp) hcond.2
  | case4 c1 c2 hcond =>
    intro h
    simp only [removeSpaceBeforePunct]
    rw [if_neg hcond]
  | case5 l h1 h2 =>
    match l, h1, h2 with
    | [], _, _ => intro h; rfl
    | [c], _, _ => intro h; rfl
    | [c1, c2], _, h2 => exact absurd rfl (h2 c1 c2)
    | c1 :: c2 :: c3 :: rest, h1, _ => exact absurd rfl (h1 c1 c2 c3 rest)

/-- Space-run collapsing is the identity when no two spaces are
adjacent. -/
theorem collapseSpaceRuns_id (l : List Char)
    (h : List.Chain' (fun a b => ¬(a = ' ' ∧ b = ' ')) l) : collapseSpaceRuns l = l := by
  induction l with
  | nil => rfl
  | cons c rest ih =>
    cases rest with
    | nil => rfl
    | cons d rest2 =>
      have hpair := (List.chain'_cons.mp h).1
      have hcond : (c = ' ' && d = ' ') = false := by
        by_cases hc : c = ' '
        · by_cases hd : d = ' '
          · exact absurd ⟨hc, hd⟩ hpair
          · simp [hd]
        · simp [hc]
      simp only [collapseSpaceRuns, hcond, Bool.false_eq_true, if_false]
      rw [ih (List.chain'_cons.mp h).2]

/-- Whitespace collapsing is the identity when all whitespace is the
plain space and no two spaces are adjacent. -/
theorem collapseWhitespace_id (l : List Char)
    (hws : ∀ c ∈ l, isPySpace c = true → c = ' ')
    (h : List.Chain' (fun a b => ¬(a = ' ' ∧ b = ' ')) l) : collapseWhitespace l = l := by
  induction l with
  | nil => rfl
  | cons c rest ih =>
    cases rest with
    | nil =>
      by_cases hc : isPySpace c = true
      · have hceq : c = ' ' := hws c (List.mem_cons_self _ _) hc
        subst hceq
        rfl
      · have hc2 : isPySpace c = false := by simpa using hc
        simp [collapseWhitespace, hc2]
    | cons d rest2 =>
      have hpair := (List.chain'_cons.mp h).1
      have h1 : (isPySpace c && isPySpace d) = false := by
        by_cases hc : isPySpace c = true
        · by_cases hd : isPySpace d = true
          · exact absurd ⟨hws c (by simp) hc, hws d (by simp) hd⟩ hpair
          · simp [show isPySpace d = false by simpa using hd]
        · simp [show isPySpace c = false by simpa using hc]
      have ihr := ih (fun e he hh => hws e (List.mem_cons_of_mem _ he) hh)
        (List.chain'_cons.mp h).2
      simp only [collapseWhitespace, h1, Bool.false_eq_true, if_false]
      by_cases hc : isPySpace c = true
      · have hceq : c = ' ' := hws c (List.mem_cons_self _ _) hc
        rw [if_pos hc, ihr, hceq]
      · rw [if_neg hc, ihr]

/-- `dropWhile` keeps a list whose head fails the predicate. -/
theorem dropWhile_cons_of_neg {p : Char → Bool} {c : Char} {l : List Char}
    (h : p c = false) : (c :: l).dropWhile p = c :: l := by
  simp [List.dropWhile_cons, h]

/-- Stripping is the identity when neither end is whitespace. -/
theorem stripChars_id (l : List Char)
    (hhead : ∀ c, l.head? = some c → isPySpace c = false)
    (hlast : ∀ c, l.getLast? = some c → isPySpace c = false) : stripChars l = l := by
  unfold stripChars
  cases l with
  | nil => rfl
  | cons c rest =>
    have h1 : isPySpace c = false := hhead c rfl
    rw [dropWhile_cons_of_neg h1]
    cases hg : (c :: rest).getLast? with
    | none => simp at hg
    | some e =>
      have h2 : isPySpace e = false := hlast e hg
      have hrev : (c :: rest).reverse.head? = some e := by
        rw [List.head?_reverse]
        exact hg
      cases hr : (c :: rest).reverse with
      | nil => simp at hr
      | cons e2 rrest =>
        rw [hr] at hrev
        have he2 : e2 = e := by simpa using hrev
        subst he2
        rw [dropWhile_cons_of_neg h2, ← hr, List.reverse_reverse]

/-- The head surviving `dropWhile` fails the predicate. -/
theorem head_dropWhile_false (p : Char → Bool) (l : List Char) :
    ∀ c, (l.dropWhile p).head? = some c → p c = false := by
  induction l with
  | nil =>
    intro c hc
    simp at hc
  | cons a rest ih =>
    intro c hc
    by_cases hp : p a
    · rw [List.dropWhile_cons, if_pos hp] at hc
      exact ih c hc
    · rw [List.dropWhile_cons, if_neg hp] at hc
      have : a = c := by simpa using hc
      subst this
      simpa using hp

/-- `dropWhile` keeps the last element of a list it leaves nonempty. -/
theorem getLast_dropWhile (p : Char → Bool) (w : List Char) (c : Char)
    (hc : (w.dropWhile p).getLast? = some c) : w.getLast? = some c := by
  induction w with
  | nil => simp at hc
  | cons a rest ih =>
    by_cases hp : p a
    · rw [List.dropWhile_cons, if_pos hp] at hc
      cases rest with
      | nil => simp at hc
      | cons b rrest =>
        rw [List.getLast?_cons_cons]
        exact ih hc
    · rw [List.dropWhile_cons, if_neg hp] at hc
      exact hc

/-- The head of a stripped string is not whitespace. -/
theorem stripChars_head (l : List Char) :
    ∀ c, (stripChars l).head? = some c → isPySpace c = false := by
  intro c hc
  unfold stripChars at hc
  rw [List.head?_reverse] at hc
  have h1 := getLast_dropWhile isPySpace _ c hc
  rw [List.getLast?_reverse] at h1
  exact head_dropWhile_false isPySpace _ c h1

/-- The last character of a stripped string is not whitespace. -/
theorem stripChars_last (l : List Char) :
    ∀ c, (stripChars l).getLast? = some c → isPySpace c = false := by
  intro c hc
  unfold stripChars at hc
  rw [List.getLast?_reverse] at hc
  exact head_dropWhile_false isPySpace _ c hc

/-- `collapseWhitespace` keeps a non-whitespace head in place. -/
theorem collapseWhitespace_head (l : List Char) (c : Char) (hc : l.head? = some c)
    (hws : isPySpace c = false) : (collapseWhitespace l).head? = some c := by
  cases l with
  | nil => simp at hc
  | cons c1 rest =>
    have hceq : c1 = c := by simpa using hc
    subst hceq
    cases rest with
    | nil => simp [collapseWhitespace, hws]
    | cons d rest2 =>
      have h1 : (isPySpace c1 && isPySpace d) = false := by simp [hws]
      simp only [collapseWhitespace, h1, Bool.false_eq_true, if_false]
      rw [if_neg (by simp [hws])]
      rfl

/-- No two adjacent spaces survive `collapseWhitespace`. -/
theorem collapseWhitespace_chain (l : List Char) :
    List.Chain' (fun a b => ¬(a = ' ' ∧ b = ' ')) (collapseWhitespace l) := by
  induction l with
  | nil => simp [collapseWhitespace]
  | cons c rest ih =>
    cases rest with
    | nil =>
      by_cases hc : isPySpace c = true <;> simp [collapseWhitespace, hc]
    | cons d rest2 =>
      simp only [collapseWhitespace]
      by_cases h1 : (isPySpace c && isPySpace d) = true
      · rw [if_pos h1]
        exact ih
      · rw [if_neg h1]
        by_cases hc : isPySpace c = true
        · rw [if_pos hc]
          have hd : isPySpace d = false := by
            cases hdd : isPySpace d
            · rfl
            · exact absurd (by rw [hc, hdd]; rfl) h1
          have hhead := collapseWhitespace_head (d :: rest2) d rfl hd
          cases hout : collapseWhitespace (d :: rest2) with
          | nil => simp
          | cons e outRest =>
            rw [hout] at hhead
            have he : e = d := by simpa using hhead
            rw [List.chain'_cons]
            refine ⟨fun hcontra => ?_, hout ▸ ih⟩
            rw [he] at hcontra
            rw [hcontra.2] at hd
            simp [isPySpace] at hd
        · rw [if_neg hc]
          cases hout : collapseWhitespace (d :: rest2) with
          | nil => simp
          | cons e outRest =>
            rw [List.chain'_cons]
            refine ⟨fun hcontra => ?_, hout ▸ ih⟩
            rw [hcontra.1] at hc
            simp [isPySpace] at hc

/-- Stripping preserves the no-two-adjacent-spaces invariant. -/
theorem chain_stripChars (l : List Char)
    (h : List.Chain' (fun a b => ¬(a = ' ' ∧ b = ' ')) l) :
    List.Chain' (fun a b => ¬(a = ' ' ∧ b = ' ')) (stripChars l) := by
  unfold stripChars
  have hsymm : ∀ a b : Char, ¬(a = ' ' ∧ b = ' ') → ¬(b = ' ' ∧ a = ' ') :=
    fun a b hab hba => hab ⟨hba.2, hba.1⟩
  have h1 : List.Chain' (fun a b => ¬(a = ' ' ∧ b = ' ')) (l.dropWhile isPySpace) :=
    h.suffix (List.dropWhile_suffix _)
  have h2 : List.Chain' (fun a b => ¬(a = ' ' ∧ b = ' ')) (l.dropWhile isPySpace).reverse := by
    rw [List.chain'_reverse]
    exact h1.imp hsymm
  have h3 := h2.suffix (List.dropWhile_suffix isPySpace)
  rw [List.chain'_reverse]
  exact h3.imp hsymm

/-- `remove_html_tags` is the identity on text without `<`. -/
theorem remove_html_tags_id (l : List Char) (h : '<' ∉ l) : remove_html_tags l = l :=
  removeTagsGo_id l h

/-- `replacePunct` is the identity on punctuation-free text. -/
theorem replacePunct_id (l : List Char) (h : ∀ c ∈ l, c ∉ punctuations) :
    replacePunct l = l := by
  unfold replacePunct
  have h2 : ∀ a ∈ l, (if a ∈ punctuations then ' ' else a) = id a :=
    fun a ha => if_neg (h a ha)
  rw [List.map_congr_left h2, List.map_id]

set_option maxHeartbeats 1000000 in
/-- Characterization of the cleaned output: every character is clean, no
two spaces are adjacent, and neither end is whitespace. -/
theorem cleanedForm_spec (l : List Char) :
    (∀ c ∈ cleanedForm l, cleanChar c)
    ∧ List.Chain' (fun a b => ¬(a = ' ' ∧ b = ' ')) (cleanedForm l)
    ∧ (∀ c, (cleanedForm l).head? = some c → isPySpace c = false)
    ∧ (∀ c, (cleanedForm l).getLast? = some c → isPySpace c = false) := by
  have htc : ∀ c ∈ text_cleaning l, preChar c := by
    intro c hc
    unfold text_cleaning at hc
    have h1 := stripChars_subset _ c hc
    have h2 := collapseSpaceRuns_subset _ c h1
    have h3 := removeSpaceBeforePunct_subset _ c h2
    have h4 : c ∈ collapseDots
        ((stripAccents (remove_html_tags (replaceNewlines l))).map lowerChar) := by
      unfold removeBrackets at h3
      exact (List.mem_filter.mp h3).1
    exact map_lowerChar_chars _ c (collapseDots_subset _ c h4)
  refine ⟨?_, ?_, stripChars_head _, stripChars_last _⟩
  · intro c hc
    unfold cleanedForm at hc
    have h1 := stripChars_subset _ c hc
    rcases collapseWhitespace_chars _ c h1 with h | ⟨h2, h3⟩
    · subst h
      exact cleanChar_space
    · rcases replacePunct_chars _ c h2 with h | ⟨h4, h5⟩
      · subst h
        exact cleanChar_space
      · refine ⟨htc c h4, h5, fun hh => ?_⟩
        rw [h3] at hh
        simp at hh
  · unfold cleanedForm
    generalize replacePunct (text_cleaning l) = w
    exact chain_stripChars _ (collapseWhitespace_chain w)

/-- A string with the output characterization is a fixed point of the
whole cleaning pipeline. -/
theorem cleanedForm_fixed (y : List Char)
    (hchars : ∀ c ∈ y, cleanChar c)
    (hchain : List.Chain' (fun a b => ¬(a = ' ' ∧ b = ' ')) y)
    (hhead : ∀ c, y.head? = some c → isPySpace c = false)
    (hlast : ∀ c, y.getLast? = some c → isPySpace c = false) :
    stripChars y = y ∧ cleanedForm y = y := by
  have hstrip : stripChars y = y := stripChars_id y hhead hlast
  have hnl : ∀ c ∈ y, c ≠ '\n' := by
    intro c hc heq
    subst heq
    have := (hchars _ hc).2.2 (by decide)
    exact absurd this (by decide)
  have hlt : '<' ∉ y := by
    intro hmem
    exact absurd (by decide : ('<' : Char) ∈ punctuations) (hchars _ hmem).2.1
  have hdots : ∀ c ∈ y, c ≠ '.' := by
    intro c hc heq
    subst heq
    exact absurd (by decide : ('.' : Char) ∈ punctuations) (hchars _ hc).2.1
  have hbr : ∀ c ∈ y, ¬(c = '(' ∨ c = ')' ∨ c = '[' ∨ c = ']') := by
    intro c hc hor
    rcases hor with h | h | h | h <;> subst h <;>
      exact absurd (by decide) (hchars _ hc).2.1
  have hsp : ∀ c ∈ y, c ∉ sentencePuncts := by
    intro c hc hmem
    have hsub : ∀ d ∈ sentencePuncts, d ∈ punctuations := by decide
    exact absurd (hsub c hmem) (hchars _ hc).2.1
  have hws : ∀ c ∈ y, isPySpace c = true → c = ' ' := fun c hc => (hchars c hc).2.2
  have htc : text_cleaning y = y := by
    unfold text_cleaning
    rw [replaceNewlines_id y hnl, remove_html_tags_id y hlt,
      stripAccents_id y (fun c hc => ⟨(hchars c hc).1.1, (hchars c hc).1.2.1⟩),
      map_lowerChar_id y (fun c hc => (hchars c hc).1.2.2),
      collapseDots_id y hdots, removeBrackets_id y hbr,
      removeSpaceBeforePunct_id y hsp, collapseSpaceRuns_id y hchain, hstrip]
  refine ⟨hstrip, ?_⟩
  unfold cleanedForm
  rw [htc, replacePunct_id y (fun c hc => (hchars c hc).2.1),
    collapseWhitespace_id y hws hchain, hstrip]

/-- `cleanedForm_spec`, stated through an equation so that callers can
work with a small name for the cleaned output. -/
theorem cleanedForm_spec_gen (l n : List Char) (hgen : cleanedForm l = n) :
    (∀ c ∈ n, cleanChar c)
    ∧ List.Chain' (fun a b => ¬(a = ' ' ∧ b = ' ')) n
    ∧ (∀ c, n.head? = some c → isPySpace c = false)
    ∧ (∀ c, n.getLast? = some c → isPySpace c = false) := by
  subst hgen
  exact cleanedForm_spec l

/-- C6: normalization is idempotent — whenever `normalize_text` returns a
non-null output, normalizing that output returns it unchanged. -/
theorem normalize_idempotent (x y : String) (h : normalize_text x = some y) :
    normalize_text y = some y := by
  unfold normalize_text at h
  by_cases h0 : stripChars x.data = []
  · rw [if_pos h0] at h
    exact absurd h (by simp)
  · rw [if_neg h0] at h
    obtain ⟨n, hgen⟩ : ∃ n, cleanedForm x.data = n := ⟨_, rfl⟩
    rw [hgen] at h
    obtain ⟨hc, hchain, hh, hl⟩ := cleanedForm_spec_gen x.data n hgen
    by_cases h1 : n = []
    · rw [if_pos h1] at h
      simp at h
    · rw [if_neg h1] at h
      have hy : y = String.mk n := (Option.some.inj h).symm
      have hdata : y.data = n := by rw [hy]
      rw [← hdata] at hc hchain hh hl h1
      obtain ⟨hstrip, hfix⟩ := cleanedForm_fixed y.data hc hchain hh hl
      unfold normalize_text
      rw [if_neg (by rw [hstrip]; exact h1), hfix, if_neg h1]

set_option maxHeartbeats 1000000 in
/-- Witness for `normalize_idempotent`: normalizing "Olá!" yields "ola",
which renormalizes to itself. -/
theorem normalize_idempotent_witness : normalize_text "ola" = some "ola" :=
  normalize_idempotent "Olá!" "ola" (by decide)

/-- The modelled whitespace characters, explicitly. -/
theorem pySpace_cases (c : Char) (h : isPySpace c = true) :
    c = ' ' ∨ c = '\t' ∨ c = '\n' ∨ c = '\r' ∨ c = '\x0b' ∨ c = '\x0c' := by
  unfold isPySpace at h
  simp only [Bool.or_eq_true, decide_eq_true_eq] at h
  tauto

/-- Whitespace characters pass untouched through the character-level
stages. -/
theorem pySpace_pre (c : Char) (h : isPySpace c = true) :
    nfdChar c = [c] ∧ isMn c = false ∧ lowerChar c = c := by
  rcases pySpace_cases c h with h | h | h | h | h | h <;> subst h <;>
    exact ⟨by decide, by decide, by decide⟩

/-- Whitespace is not the period. -/
theorem pySpace_not_dot (c : Char) (h : isPySpace c = true) : c ≠ '.' := by
  rcases pySpace_cases c h with h | h | h | h | h | h <;> subst h <;> decide

/-- Whitespace is not a bracket. -/
theorem pySpace_not_bracket (c : Char) (h : isPySpace c = true) :
    ¬(c = '(' ∨ c = ')' ∨ c = '[' ∨ c = ']') := by
  rcases pySpace_cases c h with h | h | h | h | h | h <;> subst h <;> decide

/-- Whitespace is not sentence punctuation. -/
theorem pySpace_not_sentence (c : Char) (h : isPySpace c = true) :
    c ∉ sentencePuncts := by
  rcases pySpace_cases c h with h | h | h | h | h | h <;> subst h <;> decide

/-- Stripping an all-whitespace string leaves nothing. -/
theorem stripChars_all_ws (l : List Char) (h : ∀ c ∈ l, isPySpace c = true) :
    stripChars l = [] := by
  unfold stripChars
  rw [List.dropWhile_eq_nil_iff.mpr h]
  rfl

/-- A string stripping to nothing is all whitespace. -/
theorem stripChars_eq_nil_imp (l : List Char) (h : stripChars l = []) :
    ∀ c ∈ l, isPySpace c = true := by
  unfold stripChars at h
  have h2 : (l.dropWhile isPySpace).reverse.dropWhile isPySpace = [] := by
    rwa [List.reverse_eq_nil_iff] at h
  have h4 : ∀ c ∈ l.dropWhile isPySpace, isPySpace c = true := by
    intro c hc
    exact List.dropWhile_eq_nil_iff.mp h2 c (List.mem_reverse.mpr hc)
  intro c hc
  rw [← List.takeWhile_append_dropWhile isPySpace l, List.mem_append] at hc
  rcases hc with hc | hc
  · exact List.mem_takeWhile_imp hc
  · exact h4 c hc

/-- Newline replacement keeps all-whitespace strings all-whitespace. -/
theorem replaceNewlines_all_ws (l : List Char) (h : ∀ c ∈ l, isPySpace c = true) :
    ∀ c ∈ replaceNewlines l, isPySpace c = true := by
  intro c hc
  unfold replaceNewlines at hc
  rw [List.mem_map] at hc
  obtain ⟨a, ha, hfa⟩ := hc
  subst hfa
  by_cases h2 : a = '\n'
  · rw [if_pos h2]
    decide
  · rw [if_neg h2]
    exact h a ha

/-- Cleaning an all-whitespace string leaves nothing. -/
theorem text_cleaning_all_ws (l : List Char) (h : ∀ c ∈ l, isPySpace c = true) :
    text_cleaning l = [] := by
  unfold text_cleaning
  have h1 := replaceNewlines_all_ws l h
  have hlt : '<' ∉ replaceNewlines l := by
    intro hmem
    exact absurd (h1 _ hmem) (by decide)
  rw [remove_html_tags_id _ hlt,
    stripAccents_id _ (fun c hc => ⟨(pySpace_pre c (h1 c hc)).1, (pySpace_pre c (h1 c hc)).2.1⟩),
    map_lowerChar_id _ (fun c hc => (pySpace_pre c (h1 c hc)).2.2),
    collapseDots_id _ (fun c hc => pySpace_not_dot c (h1 c hc)),
    removeBrackets_id _ (fun c hc => pySpace_not_bracket c (h1 c hc)),
    removeSpaceBeforePunct_id _ (fun c hc => pySpace_not_sentence c (h1 c hc))]
  exact stripChars_all_ws _ (fun c hc => h1 c (collapseSpaceRuns_subset _ c hc))

set_option maxHeartbeats 1000000 in
/-- C10: `normalize_text` returns null exactly when the cleaned form of
the input is empty — including non-empty inputs of pure punctuation such
as "!!!" or HTML-like tags such as "<b></b>" — and otherwise returns a
non-empty string. -/
theorem normalize_null_iff (s : String) :
    (normalize_text s = none ↔ cleanedForm s.data = [])
    ∧ (∀ y : String, normalize_text s = some y → y ≠ "")
    ∧ normalize_text "!!!" = none
    ∧ normalize_text "<b></b>" = none := by
  refine ⟨?_, ?_, by decide, by decide⟩
  · unfold normalize_text
    by_cases h0 : stripChars s.data = []
    · rw [if_pos h0]
      have hws := stripChars_eq_nil_imp s.data h0
      have htc := text_cleaning_all_ws s.data hws
      have hcf : cleanedForm s.data = [] := by
        unfold cleanedForm
        rw [htc]
        rfl
      simp [hcf]
    · rw [if_neg h0]
      by_cases h1 : cleanedForm s.data = []
      · rw [if_pos h1]
        simp [h1]
      · rw [if_neg h1]
        simp [h1]
  · intro y hy
    unfold normalize_text at hy
    by_cases h0 : stripChars s.data = []
    · rw [if_pos h0] at hy
      exact absurd hy (by simp)
    · rw [if_neg h0] at hy
      by_cases h1 : cleanedForm s.data = []
      · rw [if_pos h1] at hy
        simp at hy
      · rw [if_neg h1] at hy
        have hy2 : y = String.mk (cleanedForm s.data) := (Option.some.inj hy).symm
        intro hcontra
        rw [hcontra] at hy2
        exact h1 (congrArg String.data hy2).symm

set_option maxHeartbeats 1000000 in
/-- Witness for `normalize_null_iff`: a normal word survives non-empty,
and pure punctuation normalizes to null. -/
theorem normalize_null_iff_witness :
    ("hi" : String) ≠ "" ∧ normalize_text "!!!" = none :=
  ⟨(normalize_null_iff "hi").2.1 "hi" (by decide), (normalize_null_iff "!!!").2.2.1⟩

end KaTwoB
